import Mathlib

/-!
Shallow embedding of `src/l2l/logger.py` (class `Logger`): a TensorBoard
metrics logger that writes scalars, image batches and histograms through a
`tf.summary.FileWriter`.  The sink is modelled as an append-only trace of
events (summary appends and flushes); floating-point values are modelled
as rationals; PNG encoding (external: `plt.imsave`) is a parameter of the
image operations.  Fallible operations return `Except String`.
-/

namespace L2L

/-- `tf.Summary.Image`: PNG bytes plus the image's height and width
(`img.shape[0]`, `img.shape[1]`). -/
structure ImageProto where
  encoded_image_string : List Nat
  height : Nat
  width : Nat
deriving DecidableEq

/-- `tf.HistogramProto`: summary statistics plus bucket upper edges and
bucket counts. -/
structure HistogramProto where
  hmin : ℚ
  hmax : ℚ
  num : Nat
  hsum : ℚ
  sum_squares : ℚ
  bucket_limit : List ℚ
  bucket : List Nat
deriving DecidableEq

/-- The payload of a `tf.Summary.Value`: a tagged union of the three record
kinds this logger emits. -/
inductive SummaryPayload where
  | simple_value : ℚ → SummaryPayload
  | image : ImageProto → SummaryPayload
  | histo : HistogramProto → SummaryPayload
deriving DecidableEq

/-- `tf.Summary.Value(tag=..., <payload>)`. -/
structure SummaryValue where
  tag : String
  payload : SummaryPayload
deriving DecidableEq

/-- `tf.Summary(value=[...])` is a list of tagged values. -/
abbrev Summary := List SummaryValue

/-- An observable effect on the sink: an `add_summary(summary, step)` call
or a `flush()` call. -/
inductive Event where
  | summary : Summary → Int → Event
  | flush : Event
  | graphDef : String → Event
deriving DecidableEq

/-- The `tf.summary.FileWriter`, modelled by its trace of effects. -/
structure Writer where
  events : List Event
deriving DecidableEq

/-- `self.writer.add_summary(summary, step)`: appends one summary record. -/
def Writer.add_summary (w : Writer) (s : Summary) (step : Int) : Writer :=
  ⟨w.events ++ [Event.summary s step]⟩

/-- `self.writer.flush()` (via `Logger.flush`). -/
def Writer.flushW (w : Writer) : Writer :=
  ⟨w.events ++ [Event.flush]⟩

/-- A numpy image array: its shape tuple and (flattened) numeric data. -/
structure NpArray where
  shape : List Nat
  data : List ℚ
deriving DecidableEq

/- ---------------- numpy helpers used by `log_histogram` ---------------- -/

/-- `np.min(values)`: raises on a zero-size array. -/
def npMin : List ℚ → Except String ℚ
  | [] => .error "zero-size array to reduction operation minimum which has no identity"
  | v :: vs => .ok (vs.foldl min v)

/-- `np.max(values)`: raises on a zero-size array. -/
def npMax : List ℚ → Except String ℚ
  | [] => .error "zero-size array to reduction operation maximum which has no identity"
  | v :: vs => .ok (vs.foldl max v)

/-- Total minimum of a sample list (0 on the empty list); on non-empty
lists it agrees with `npMin`. -/
def aminD : List ℚ → ℚ
  | [] => 0
  | v :: vs => vs.foldl min v

/-- Total maximum of a sample list (0 on the empty list); on non-empty
lists it agrees with `npMax`. -/
def amaxD : List ℚ → ℚ
  | [] => 0
  | v :: vs => vs.foldl max v

/-- numpy `_get_outer_edges`: the histogram range is `[min, max]` of the
samples, expanded to `[min - 1/2, max + 1/2]` when `min = max`, and `[0, 1]`
for an empty sample set. -/
def getOuterEdges (values : List ℚ) : ℚ × ℚ :=
  match values with
  | [] => (0, 1)
  | v :: vs =>
    let lo := vs.foldl min v
    let hi := vs.foldl max v
    if lo = hi then (lo - 1/2, hi + 1/2) else (lo, hi)

/-- The `bins + 1` equal-width bin edges over `[lo, hi]`. -/
def binEdges (lo hi : ℚ) (bins : Nat) : List ℚ :=
  (List.range (bins + 1)).map (fun i : Nat => lo + (hi - lo) * (i : ℚ) / bins)

/-- The index of the bucket a sample falls into: equal-width bucketing over
`[lo, hi]`, left-closed buckets, with the last bucket also right-closed
(numpy clamps the top sample into bucket `bins - 1`). -/
def binIdx (lo hi : ℚ) (bins : Nat) (x : ℚ) : Nat :=
  min (⌊(x - lo) * bins / (hi - lo)⌋).toNat (bins - 1)

/-- The bucket counts: for each bucket, how many samples fall into it. -/
def histCounts (lo hi : ℚ) (bins : Nat) (values : List ℚ) : List Nat :=
  (List.range bins).map (fun i => values.countP (fun x => binIdx lo hi bins x == i))

/-- `np.histogram(values, bins=bins)`: raises unless `bins` is positive;
otherwise returns the bucket counts and the `bins + 1` bin edges. -/
def npHistogram (values : List ℚ) (bins : Nat) : Except String (List Nat × List ℚ) :=
  if bins = 0 then
    .error "`bins` must be positive, when an integer"
  else
    let lohi := getOuterEdges values
    .ok (histCounts lohi.1 lohi.2 bins values, binEdges lohi.1 lohi.2 bins)

/- ---------------- Logger operations ---------------- -/

/-- `Logger.log_scalar(tag, value, step)`: builds a one-value summary with
`simple_value=value`, appends it, flushes. -/
def log_scalar (w : Writer) (tag : String) (value : ℚ) (step : Int) : Writer :=
  let summary : Summary := [⟨tag, SummaryPayload.simple_value value⟩]
  (w.add_summary summary step).flushW

/-- One iteration of the loop in `Logger.log_images`: encode the image as
PNG bytes (`plt.imsave` into a string buffer), then build a
`tf.Summary.Image` from `img.shape[0]` and `img.shape[1]` — indexing the
shape tuple raises when the array has fewer than two dimensions — and wrap
it as a `tf.Summary.Value` tagged `"{tag}/{nr}"`. -/
def mkImageValue (enc : NpArray → List Nat) (tag : String) (nr : Nat)
    (img : NpArray) : Except String SummaryValue :=
  let s := enc img
  match img.shape.get? 0, img.shape.get? 1 with
  | some h, some wdt =>
      .ok ⟨tag ++ "/" ++ toString nr, SummaryPayload.image ⟨s, h, wdt⟩⟩
  | _, _ => .error "tuple index out of range"

/-- The `for nr, img in enumerate(images)` loop of `Logger.log_images`,
accumulating `im_summaries` from index `nr` on. -/
def buildImSummaries (enc : NpArray → List Nat) (tag : String) (nr : Nat) :
    List NpArray → Except String (List SummaryValue)
  | [] => .ok []
  | img :: rest => do
    let v ← mkImageValue enc tag nr img
    let vs ← buildImSummaries enc tag (nr + 1) rest
    .ok (v :: vs)

/-- `Logger.log_images(tag, images, step)`: encode every image in order,
batch all resulting values into a single summary, append it.  No flush. -/
def log_images (enc : NpArray → List Nat) (w : Writer) (tag : String)
    (images : List NpArray) (step : Int) : Except String Writer := do
  let im_summaries ← buildImSummaries enc tag 0 images
  let summary : Summary := im_summaries
  .ok (w.add_summary summary step)

/-- `Logger.log_histogram(tag, values, step, bins=1000)`: histogram the
samples with numpy, fill a `HistogramProto` with min/max/count/sum/sum of
squares, drop the first bin edge, append the record, flush. -/
def log_histogram (w : Writer) (tag : String) (values : List ℚ) (step : Int)
    (bins : Nat := 1000) : Except String Writer := do
  let (counts, bin_edges) ← npHistogram values bins
  let mn ← npMin values
  let mx ← npMax values
  let hist : HistogramProto :=
    { hmin := mn
      hmax := mx
      num := values.length
      hsum := (values.map id).sum
      sum_squares := (values.map (fun v => v ^ 2)).sum
      bucket_limit := bin_edges.drop 1
      bucket := counts }
  let summary : Summary := [⟨tag, SummaryPayload.histo hist⟩]
  let w := w.add_summary summary step
  .ok w.flushW

/-- Modelled from the spec: `tf.summary.FileWriter(log_dir, graph)` is
external library code (not in this repository); per the spec it
creates/opens the sink at `log_dir`, serializes the optional graph once,
and fails when the path is unwritable.  `writable` abstracts the
filesystem's answer for a path. -/
def fileWriter (writable : String → Bool) (log_dir : String)
    (graph : Option String) : Except String Writer :=
  if writable log_dir then
    .ok ⟨(graph.map Event.graphDef).toList⟩
  else
    .error "Permission denied"

/-- `Logger.__init__(log_dir, graph)`: its only statement constructs the
`FileWriter`. -/
def loggerInit (writable : String → Bool) (log_dir : String)
    (graph : Option String) : Except String Writer :=
  fileWriter writable log_dir graph

/- ---------------- derived characterizations ---------------- -/

/-- The histogram record `log_histogram` writes for a non-empty sample
list (proved below to agree with the operation). -/
def histRecord (values : List ℚ) (bins : Nat) : HistogramProto :=
  let lohi := getOuterEdges values
  { hmin := aminD values
    hmax := amaxD values
    num := values.length
    hsum := (values.map id).sum
    sum_squares := (values.map (fun v => v ^ 2)).sum
    bucket_limit := (binEdges lohi.1 lohi.2 bins).drop 1
    bucket := histCounts lohi.1 lohi.2 bins values }

/-- The summary values `log_images` batches for a list of well-shaped
images, numbering from `nr` (proved below to agree with the operation). -/
def imgVals (enc : NpArray → List Nat) (tag : String) :
    Nat → List NpArray → List SummaryValue
  | _, [] => []
  | nr, img :: rest =>
    ⟨tag ++ "/" ++ toString nr,
      SummaryPayload.image ⟨enc img, img.shape.getD 0 0, img.shape.getD 1 0⟩⟩ ::
      imgVals enc tag (nr + 1) rest

/- ---------------- helper lemmas ---------------- -/

theorem sum_map_add (l : List Nat) (g h : Nat → Nat) :
    (l.map (fun i => g i + h i)).sum = (l.map g).sum + (l.map h).sum := by
  induction l with
  | nil => simp
  | cons a l ih => simp [ih]; omega

theorem sum_indicator_zero (k n : Nat) (hk : n ≤ k) :
    ((List.range n).map (fun i => if k == i then 1 else 0)).sum = 0 := by
  induction n with
  | zero => simp
  | succ n ih =>
    rw [List.range_succ, List.map_append, List.sum_append, ih (by omega)]
    simp
    omega

theorem sum_indicator (k n : Nat) (hk : k < n) :
    ((List.range n).map (fun i => if k == i then 1 else 0)).sum = 1 := by
  induction n with
  | zero => omega
  | succ n ih =>
    rw [List.range_succ, List.map_append, List.sum_append]
    by_cases h : k < n
    · rw [ih h]; simp; omega
    · have hkn : k = n := by omega
      subst hkn
      rw [sum_indicator_zero k k (le_refl k)]
      simp

theorem counts_sum (f : ℚ → Nat) (n : Nat) (hf : ∀ x, f x < n) (l : List ℚ) :
    ((List.range n).map (fun i => l.countP (fun x => f x == i))).sum = l.length := by
  induction l with
  | nil => simp [List.countP_nil]
  | cons a l ih =>
    have hcons : ∀ i : Nat,
        (a :: l).countP (fun x => f x == i)
          = l.countP (fun x => f x == i) + (if f a == i then 1 else 0) := by
      intro i; rw [List.countP_cons]
    calc ((List.range n).map fun i => (a :: l).countP fun x => f x == i).sum
        = ((List.range n).map fun i =>
            l.countP (fun x => f x == i) + (if f a == i then 1 else 0)).sum := by
          exact congrArg List.sum (List.map_congr_left (fun i _ => hcons i))
      _ = ((List.range n).map fun i => l.countP fun x => f x == i).sum
            + ((List.range n).map fun i => if f a == i then 1 else 0).sum :=
          sum_map_add _ _ _
      _ = l.length + 1 := by rw [ih, sum_indicator (f a) n (hf a)]
      _ = (a :: l).length := by simp

theorem binIdx_lt (lo hi : ℚ) (bins : Nat) (hb : 1 ≤ bins) (x : ℚ) :
    binIdx lo hi bins x < bins := by
  have h : binIdx lo hi bins x ≤ bins - 1 := min_le_right _ _
  omega

theorem foldl_min_mem (l : List ℚ) : ∀ a : ℚ, l.foldl min a ∈ a :: l := by
  induction l with
  | nil => intro a; simp
  | cons b l ih =>
    intro a
    have h := ih (min a b)
    rw [List.foldl_cons]
    rcases List.mem_cons.mp h with h1 | h1
    · rcases min_choice a b with h2 | h2 <;> rw [h1, h2] <;> simp
    · simp [List.mem_cons.mpr (Or.inr h1)]

theorem foldl_min_le (l : List ℚ) : ∀ a x : ℚ, x ∈ a :: l → l.foldl min a ≤ x := by
  induction l with
  | nil =>
    intro a x hx
    rw [List.mem_singleton.mp hx]
    simp
  | cons b l ih =>
    intro a x hx
    rw [List.foldl_cons]
    rcases List.mem_cons.mp hx with h1 | hx'
    · rw [h1]
      exact le_trans (ih (min a b) (min a b) (List.mem_cons_self _ _)) (min_le_left a b)
    · rcases List.mem_cons.mp hx' with h2 | hx''
      · rw [h2]
        exact le_trans (ih (min a b) (min a b) (List.mem_cons_self _ _)) (min_le_right a b)
      · exact ih (min a b) x (List.mem_cons.mpr (Or.inr hx''))

theorem foldl_max_mem (l : List ℚ) : ∀ a : ℚ, l.foldl max a ∈ a :: l := by
  induction l with
  | nil => intro a; simp
  | cons b l ih =>
    intro a
    have h := ih (max a b)
    rw [List.foldl_cons]
    rcases List.mem_cons.mp h with h1 | h1
    · rcases max_choice a b with h2 | h2 <;> rw [h1, h2] <;> simp
    · simp [List.mem_cons.mpr (Or.inr h1)]

theorem foldl_max_ge (l : List ℚ) : ∀ a x : ℚ, x ∈ a :: l → x ≤ l.foldl max a := by
  induction l with
  | nil =>
    intro a x hx
    rw [List.mem_singleton.mp hx]
    simp
  | cons b l ih =>
    intro a x hx
    rw [List.foldl_cons]
    rcases List.mem_cons.mp hx with h1 | hx'
    · rw [h1]
      exact le_trans (le_max_left a b) (ih (max a b) (max a b) (List.mem_cons_self _ _))
    · rcases List.mem_cons.mp hx' with h2 | hx''
      · rw [h2]
        exact le_trans (le_max_right a b) (ih (max a b) (max a b) (List.mem_cons_self _ _))
      · exact ih (max a b) x (List.mem_cons.mpr (Or.inr hx''))

theorem mkImageValue_ok (enc : NpArray → List Nat) (tag : String) (nr : Nat)
    (img : NpArray) (h : 2 ≤ img.shape.length) :
    mkImageValue enc tag nr img =
      .ok ⟨tag ++ "/" ++ toString nr,
        SummaryPayload.image ⟨enc img, img.shape.getD 0 0, img.shape.getD 1 0⟩⟩ := by
  obtain ⟨shape, d⟩ := img
  match shape with
  | [] => simp at h
  | [a] => simp at h
  | a :: b :: t => rfl

theorem mkImageValue_err (enc : NpArray → List Nat) (tag : String) (nr : Nat)
    (img : NpArray) (h : img.shape.length < 2) :
    mkImageValue enc tag nr img = .error "tuple index out of range" := by
  obtain ⟨shape, d⟩ := img
  match shape with
  | [] => rfl
  | [a] => rfl
  | a :: b :: t => simp at h; omega

theorem buildImSummaries_ok (enc : NpArray → List Nat) (tag : String) :
    ∀ (images : List NpArray) (nr : Nat),
      (∀ img ∈ images, 2 ≤ img.shape.length) →
      buildImSummaries enc tag nr images = .ok (imgVals enc tag nr images) := by
  intro images
  induction images with
  | nil => intro nr _; rfl
  | cons img rest ih =>
    intro nr h
    have hok := mkImageValue_ok enc tag nr img (h img (List.mem_cons_self _ _))
    have hrest := ih (nr + 1) (fun i hi => h i (List.mem_cons.mpr (Or.inr hi)))
    simp [buildImSummaries, hok, hrest, imgVals, Bind.bind, Except.bind]

theorem buildImSummaries_err (enc : NpArray → List Nat) (tag : String) :
    ∀ (images : List NpArray) (nr : Nat),
      (∃ img ∈ images, img.shape.length < 2) →
      ∃ e, buildImSummaries enc tag nr images = .error e := by
  intro images
  induction images with
  | nil =>
    intro nr h
    rcases h with ⟨i, hi, _⟩
    simp at hi
  | cons img rest ih =>
    intro nr h
    by_cases hbad : img.shape.length < 2
    · exact ⟨"tuple index out of range",
        by simp [buildImSummaries, mkImageValue_err enc tag nr img hbad,
                 Bind.bind, Except.bind]⟩
    · have h2 : 2 ≤ img.shape.length := by omega
      rcases h with ⟨i, hi, hlen⟩
      rcases List.mem_cons.mp hi with h1 | h1
      · rw [h1] at hlen; omega
      · rcases ih (nr + 1) ⟨i, h1, hlen⟩ with ⟨e, he⟩
        exact ⟨e, by simp [buildImSummaries, mkImageValue_ok enc tag nr img h2, he,
                           Bind.bind, Except.bind]⟩

theorem imgVals_length (enc : NpArray → List Nat) (tag : String) :
    ∀ (images : List NpArray) (nr : Nat),
      (imgVals enc tag nr images).length = images.length := by
  intro images
  induction images with
  | nil => intro nr; rfl
  | cons img rest ih => intro nr; simp [imgVals, ih]

theorem imgVals_get? (enc : NpArray → List Nat) (tag : String) :
    ∀ (images : List NpArray) (nr i : Nat),
      (imgVals enc tag nr images).get? i =
        (images.get? i).map (fun img =>
          ⟨tag ++ "/" ++ toString (nr + i),
            SummaryPayload.image ⟨enc img, img.shape.getD 0 0, img.shape.getD 1 0⟩⟩) := by
  intro images
  induction images with
  | nil => intro nr i; simp [imgVals]
  | cons img rest ih =>
    intro nr i
    match i with
    | 0 => simp [imgVals]
    | i + 1 =>
      have harith : nr + 1 + i = nr + (i + 1) := by omega
      have hrec := ih (nr + 1) i
      rw [harith] at hrec
      simpa [imgVals] using hrec

theorem log_images_ok_eq (enc : NpArray → List Nat) (w : Writer) (tag : String)
    (images : List NpArray) (step : Int)
    (h : ∀ img ∈ images, 2 ≤ img.shape.length) :
    log_images enc w tag images step =
      .ok ⟨w.events ++ [Event.summary (imgVals enc tag 0 images) step]⟩ := by
  simp [log_images, buildImSummaries_ok enc tag images 0 h, Writer.add_summary,
        Bind.bind, Except.bind]

theorem log_images_err (enc : NpArray → List Nat) (w : Writer) (tag : String)
    (images : List NpArray) (step : Int)
    (h : ∃ img ∈ images, img.shape.length < 2) :
    ∃ e, log_images enc w tag images step = .error e := by
  rcases buildImSummaries_err enc tag images 0 h with ⟨e, he⟩
  exact ⟨e, by simp [log_images, he, Bind.bind, Except.bind]⟩

theorem log_images_ok_shape (enc : NpArray → List Nat) (w : Writer) (tag : String)
    (images : List NpArray) (step : Int) :
    ∀ w', log_images enc w tag images step = .ok w' →
      ∃ vals, w'.events = w.events ++ [Event.summary vals step] := by
  intro w' hw
  cases hb : buildImSummaries enc tag 0 images with
  | error e => simp [log_images, hb, Bind.bind, Except.bind] at hw
  | ok vals =>
    simp [log_images, hb, Bind.bind, Except.bind, Writer.add_summary] at hw
    exact ⟨vals, by rw [← hw]⟩

theorem log_histogram_ok_eq (w : Writer) (tag : String) (v : ℚ) (vs : List ℚ)
    (step : Int) (bins : Nat) (hb : bins ≠ 0) :
    log_histogram w tag (v :: vs) step bins =
      .ok ⟨w.events ++
        [Event.summary [⟨tag, SummaryPayload.histo (histRecord (v :: vs) bins)⟩] step,
         Event.flush]⟩ := by
  simp [log_histogram, npHistogram, hb, npMin, npMax, histRecord, aminD, amaxD,
        Writer.add_summary, Writer.flushW, Bind.bind, Except.bind]

theorem log_histogram_ok_shape (w : Writer) (tag : String) (values : List ℚ)
    (step : Int) (bins : Nat) :
    ∀ w', log_histogram w tag values step bins = .ok w' →
      ∃ s, w'.events = w.events ++ [Event.summary s step, Event.flush] := by
  intro w' hw
  cases h1 : npHistogram values bins with
  | error e => simp [log_histogram, h1, Bind.bind, Except.bind] at hw
  | ok ce =>
    cases h2 : npMin values with
    | error e => simp [log_histogram, h1, h2, Bind.bind, Except.bind] at hw
    | ok mn =>
      cases h3 : npMax values with
      | error e => simp [log_histogram, h1, h2, h3, Bind.bind, Except.bind] at hw
      | ok mx =>
        obtain ⟨counts, edges⟩ := ce
        simp [log_histogram, h1, h2, h3, Bind.bind, Except.bind,
              Writer.add_summary, Writer.flushW] at hw
        exact ⟨_, by rw [← hw]⟩

theorem log_histogram_nil_err (w : Writer) (tag : String) (step : Int) (bins : Nat) :
    ∃ e, log_histogram w tag ([] : List ℚ) step bins = .error e := by
  by_cases hb : bins = 0
  · exact ⟨"`bins` must be positive, when an integer",
      by simp [log_histogram, npHistogram, hb, Bind.bind, Except.bind]⟩
  · exact ⟨"zero-size array to reduction operation minimum which has no identity",
      by simp [log_histogram, npHistogram, hb, npMin, Bind.bind, Except.bind]⟩

theorem binEdges_length (lo hi : ℚ) (bins : Nat) :
    (binEdges lo hi bins).length = bins + 1 := by
  rw [binEdges, List.length_map, List.length_range]

theorem histCounts_length (lo hi : ℚ) (bins : Nat) (values : List ℚ) :
    (histCounts lo hi bins values).length = bins := by
  rw [histCounts, List.length_map, List.length_range]

theorem binEdges_get? (lo hi : ℚ) (bins i : Nat) (h : i < bins + 1) :
    (binEdges lo hi bins).get? i = some (lo + (hi - lo) * i / bins) := by
  rw [binEdges, List.get?_map, List.get?_range h]
  rfl

theorem histCounts_get? (lo hi : ℚ) (bins i : Nat) (values : List ℚ) (h : i < bins) :
    (histCounts lo hi bins values).get? i =
      some (values.countP (fun x => binIdx lo hi bins x == i)) := by
  rw [histCounts, List.get?_map, List.get?_range h]
  rfl

theorem getOuterEdges_of_lt (v : ℚ) (vs : List ℚ)
    (h : aminD (v :: vs) < amaxD (v :: vs)) :
    getOuterEdges (v :: vs) = (aminD (v :: vs), amaxD (v :: vs)) := by
  have hne : vs.foldl min v ≠ vs.foldl max v :=
    ne_of_lt (by simpa [aminD, amaxD] using h)
  simp [getOuterEdges, aminD, amaxD, hne]

theorem getOuterEdges_of_eq (v : ℚ) (vs : List ℚ)
    (h : aminD (v :: vs) = amaxD (v :: vs)) :
    getOuterEdges (v :: vs) =
      (aminD (v :: vs) - 1/2, amaxD (v :: vs) + 1/2) := by
  have he : vs.foldl min v = vs.foldl max v := by simpa [aminD, amaxD] using h
  simp [getOuterEdges, aminD, amaxD, he]

/- ---------------- claims ---------------- -/

/-- C1: for every scalar input, `log_scalar` appends exactly one record to
the sink — a summary holding exactly one value — and that record carries
the given tag, the given step, and the given value as its scalar
(`simple_value`) payload; the append is followed by the flush and nothing
else. -/
theorem log_scalar_one_record (w : Writer) (tag : String) (value : ℚ) (step : Int) :
    (log_scalar w tag value step).events =
      w.events ++ [Event.summary [⟨tag, SummaryPayload.simple_value value⟩] step,
                   Event.flush] := by
  simp [log_scalar, Writer.add_summary, Writer.flushW]

/-- C6: `log_scalar` appends one summary and then flushes; a successful
`log_histogram` appends one summary and then flushes; a successful
`log_images` appends one summary and does not flush; in each case the sink
trace grows by exactly those events and nothing else. -/
theorem sink_effects (enc : NpArray → List Nat) (w : Writer) (tag : String)
    (value : ℚ) (values : List ℚ) (images : List NpArray) (step : Int) (bins : Nat) :
    ((log_scalar w tag value step).events =
        w.events ++ [Event.summary [⟨tag, SummaryPayload.simple_value value⟩] step,
                     Event.flush]) ∧
    (∀ w', log_histogram w tag values step bins = .ok w' →
        ∃ s, w'.events = w.events ++ [Event.summary s step, Event.flush]) ∧
    (∀ w', log_images enc w tag images step = .ok w' →
        ∃ s, w'.events = w.events ++ [Event.summary s step]) := by
  refine ⟨?_, log_histogram_ok_shape w tag values step bins,
    log_images_ok_shape enc w tag images step⟩
  simp [log_scalar, Writer.add_summary, Writer.flushW]

/-- Witness for C6: a concrete successful `log_images` call appends its
single summary without a flush. -/
theorem sink_effects_witness :
    ∃ s, (Writer.mk [Event.summary
        [⟨"im/0", SummaryPayload.image ⟨[2, 3], 2, 3⟩⟩] 4]).events =
      (Writer.mk []).events ++ [Event.summary s 4] :=
  (sink_effects (fun a => a.shape) ⟨[]⟩ "im" 0 [] [⟨[2, 3], []⟩] 4 1).2.2
    ⟨[Event.summary [⟨"im/0", SummaryPayload.image ⟨[2, 3], 2, 3⟩⟩] 4]⟩ rfl

/-- C7: on the empty sample sequence `log_histogram` fails with an error
that is returned to the caller unchanged (it is never caught or turned
into a successful write). -/
theorem log_histogram_empty_fails (w : Writer) (tag : String) (step : Int)
    (bins : Nat) :
    (∃ e, log_histogram w tag ([] : List ℚ) step bins = .error e) ∧
    (∀ w', log_histogram w tag ([] : List ℚ) step bins ≠ .ok w') := by
  rcases log_histogram_nil_err w tag step bins with ⟨e, he⟩
  refine ⟨⟨e, he⟩, ?_⟩
  intro w' h
  rw [he] at h
  cases h

/-- Witness for C7: the empty sample list at the default bucket count. -/
theorem log_histogram_empty_fails_witness :
    (∃ e, log_histogram ⟨[]⟩ "h" ([] : List ℚ) 0 1000 = .error e) ∧
    (∀ w', log_histogram ⟨[]⟩ "h" ([] : List ℚ) 0 1000 ≠ .ok w') :=
  log_histogram_empty_fails ⟨[]⟩ "h" 0 1000

/-- C8: an image batch containing an array without the two leading
(height and width) dimensions makes `log_images` fail, surfacing the
error to the caller. -/
theorem log_images_bad_shape_fails (enc : NpArray → List Nat) (w : Writer)
    (tag : String) (images : List NpArray) (step : Int)
    (h : ∃ img ∈ images, img.shape.length < 2) :
    ∃ e, log_images enc w tag images step = .error e :=
  log_images_err enc w tag images step h

/-- Witness for C8: a one-dimensional array in the batch makes the call
fail. -/
theorem log_images_bad_shape_fails_witness :
    (∃ img ∈ [NpArray.mk [5] []], img.shape.length < 2) ∧
    ∃ e, log_images (fun a => a.shape) ⟨[]⟩ "im" [NpArray.mk [5] []] 0 = .error e :=
  ⟨by decide,
   log_images_bad_shape_fails (fun a => a.shape) ⟨[]⟩ "im" [NpArray.mk [5] []] 0
     (by decide)⟩

/-- C9: constructing the logger over an unwritable path fails (the
`FileWriter`'s error propagates out of `__init__`), before any log call is
attempted. -/
theorem loggerInit_unwritable (writable : String → Bool) (log_dir : String)
    (graph : Option String) (h : writable log_dir = false) :
    ∃ e, loggerInit writable log_dir graph = .error e :=
  ⟨"Permission denied", by simp [loggerInit, fileWriter, h]⟩

/-- Witness for C9: a filesystem refusing every path makes `__init__`
fail. -/
theorem loggerInit_unwritable_witness :
    ((fun _ : String => false) "/logs" = false) ∧
    ∃ e, loggerInit (fun _ => false) "/logs" none = .error e :=
  ⟨rfl, loggerInit_unwritable (fun _ => false) "/logs" none rfl⟩

/-- C10: `log_images` is atomic with respect to the sink: every successful
run appends exactly one batched summary (never a partial prefix of the
batch), and a batch containing a malformed image yields no successful
state at all, so nothing is appended on error. -/
theorem log_images_atomic (enc : NpArray → List Nat) (w : Writer) (tag : String)
    (images : List NpArray) (step : Int) :
    (∀ w', log_images enc w tag images step = .ok w' →
       ∃ vals, w'.events = w.events ++ [Event.summary vals step]) ∧
    ((∃ img ∈ images, img.shape.length < 2) →
       ∀ w', log_images enc w tag images step ≠ .ok w') := by
  refine ⟨log_images_ok_shape enc w tag images step, ?_⟩
  intro hbad w' hok
  rcases log_images_err enc w tag images step hbad with ⟨e, he⟩
  rw [he] at hok
  cases hok

/-- Witness for C10: with a malformed image in the batch, no writer state
is produced. -/
theorem log_images_atomic_witness :
    log_images (fun a => a.shape) ⟨[]⟩ "im" [NpArray.mk [] []] 0 ≠
      .ok ⟨[]⟩ :=
  (log_images_atomic (fun a => a.shape) ⟨[]⟩ "im" [NpArray.mk [] []] 0).2
    (by decide) ⟨[]⟩

/-- C2: for an image batch of length `N` whose images all have the two
leading dimensions, `log_images` batches exactly `N` sub-records into a
single append; the `i`-th sub-record is tagged `"{tag}/{i}"` and wraps the
PNG encoding of the `i`-th image together with that image's height
(`shape[0]`) and width (`shape[1]`). -/
theorem log_images_batch (enc : NpArray → List Nat) (w : Writer) (tag : String)
    (images : List NpArray) (step : Int)
    (h : ∀ img ∈ images, 2 ≤ img.shape.length) :
    ∃ vals : List SummaryValue,
      log_images enc w tag images step =
        .ok ⟨w.events ++ [Event.summary vals step]⟩ ∧
      vals.length = images.length ∧
      ∀ i, i < images.length →
        ∃ img v, images.get? i = some img ∧ vals.get? i = some v ∧
          v.tag = tag ++ "/" ++ toString i ∧
          v.payload = SummaryPayload.image
            ⟨enc img, img.shape.getD 0 0, img.shape.getD 1 0⟩ := by
  refine ⟨imgVals enc tag 0 images, log_images_ok_eq enc w tag images step h,
    imgVals_length enc tag images 0, ?_⟩
  intro i hi
  have himg : images.get? i = some (images.get ⟨i, hi⟩) := List.get?_eq_get hi
  have hv := imgVals_get? enc tag images 0 i
  rw [himg] at hv
  refine ⟨images.get ⟨i, hi⟩, _, himg, hv, ?_, rfl⟩
  simp

/-- Witness for C2: one well-shaped 2×3 image logged at step 3. -/
theorem log_images_batch_witness :
    (∀ img ∈ [NpArray.mk [2, 3] []], 2 ≤ img.shape.length) ∧
    ∃ vals : List SummaryValue,
      log_images (fun a => a.shape) ⟨[]⟩ "im" [NpArray.mk [2, 3] []] 3 =
        .ok ⟨(Writer.mk []).events ++ [Event.summary vals 3]⟩ ∧
      vals.length = [NpArray.mk [2, 3] []].length ∧
      ∀ i, i < [NpArray.mk [2, 3] []].length →
        ∃ img v, [NpArray.mk [2, 3] []].get? i = some img ∧ vals.get? i = some v ∧
          v.tag = "im" ++ "/" ++ toString i ∧
          v.payload = SummaryPayload.image
            ⟨img.shape, img.shape.getD 0 0, img.shape.getD 1 0⟩ :=
  ⟨by decide,
   log_images_batch (fun a => a.shape) ⟨[]⟩ "im" [NpArray.mk [2, 3] []] 3
     (by decide)⟩

/-- C3: for every non-empty sample list and positive bucket count, the
histogram record `log_histogram` writes has bucket counts that sum to the
number of input samples. -/
theorem log_histogram_counts_total (w : Writer) (tag : String) (values : List ℚ)
    (step : Int) (bins : Nat) (hne : values ≠ []) (hb : 1 ≤ bins) :
    ∃ hist : HistogramProto,
      log_histogram w tag values step bins =
        .ok ⟨w.events ++
          [Event.summary [⟨tag, SummaryPayload.histo hist⟩] step, Event.flush]⟩ ∧
      hist.bucket.sum = values.length := by
  cases values with
  | nil => exact absurd rfl hne
  | cons v vs =>
    refine ⟨histRecord (v :: vs) bins,
      log_histogram_ok_eq w tag v vs step bins (by omega), ?_⟩
    have hsum := counts_sum
      (binIdx (getOuterEdges (v :: vs)).1 (getOuterEdges (v :: vs)).2 bins) bins
      (fun x => binIdx_lt _ _ bins hb x) (v :: vs)
    simpa [histRecord, histCounts] using hsum

/-- Witness for C3: samples `[1, 2]` in two buckets; the counts sum to 2. -/
theorem log_histogram_counts_total_witness :
    (([(1 : ℚ), 2] : List ℚ) ≠ [] ∧ 1 ≤ 2) ∧
    ∃ hist : HistogramProto,
      log_histogram ⟨[]⟩ "h" [1, 2] 0 2 =
        .ok ⟨(Writer.mk []).events ++
          [Event.summary [⟨"h", SummaryPayload.histo hist⟩] 0, Event.flush]⟩ ∧
      hist.bucket.sum = ([(1 : ℚ), 2] : List ℚ).length :=
  ⟨⟨by decide, by decide⟩,
   log_histogram_counts_total ⟨[]⟩ "h" [1, 2] 0 2 (by decide) (by decide)⟩

/-- C4: for every non-empty sample list and positive bucket count, the
histogram record carries the summary statistics of the input: its min is
the least sample and its max the greatest (both bounds are attained in the
sample list), its count is the number of samples, its sum is the sum of
the samples, and its sum-of-squares is the sum of the squared samples. -/
theorem log_histogram_stats (w : Writer) (tag : String) (values : List ℚ)
    (step : Int) (bins : Nat) (hne : values ≠ []) (hb : 1 ≤ bins) :
    ∃ hist : HistogramProto,
      log_histogram w tag values step bins =
        .ok ⟨w.events ++
          [Event.summary [⟨tag, SummaryPayload.histo hist⟩] step, Event.flush]⟩ ∧
      hist.hmin ∈ values ∧ (∀ x ∈ values, hist.hmin ≤ x) ∧
      hist.hmax ∈ values ∧ (∀ x ∈ values, x ≤ hist.hmax) ∧
      hist.num = values.length ∧
      hist.hsum = values.sum ∧
      hist.sum_squares = (values.map (fun v => v ^ 2)).sum := by
  cases values with
  | nil => exact absurd rfl hne
  | cons v vs =>
    refine ⟨histRecord (v :: vs) bins,
      log_histogram_ok_eq w tag v vs step bins (by omega),
      ?_, ?_, ?_, ?_, ?_, ?_, ?_⟩
    · simpa [histRecord, aminD] using foldl_min_mem vs v
    · intro x hx
      simpa [histRecord, aminD] using foldl_min_le vs v x hx
    · simpa [histRecord, amaxD] using foldl_max_mem vs v
    · intro x hx
      simpa [histRecord, amaxD] using foldl_max_ge vs v x hx
    · rfl
    · simp [histRecord]
    · rfl

/-- Witness for C4: samples `[2, 1]` in one bucket. -/
theorem log_histogram_stats_witness :
    (([(2 : ℚ), 1] : List ℚ) ≠ [] ∧ 1 ≤ 1) ∧
    ∃ hist : HistogramProto,
      log_histogram ⟨[]⟩ "h" [2, 1] 5 1 =
        .ok ⟨(Writer.mk []).events ++
          [Event.summary [⟨"h", SummaryPayload.histo hist⟩] 5, Event.flush]⟩ ∧
      hist.hmin ∈ ([(2 : ℚ), 1] : List ℚ) ∧
      (∀ x ∈ ([(2 : ℚ), 1] : List ℚ), hist.hmin ≤ x) ∧
      hist.hmax ∈ ([(2 : ℚ), 1] : List ℚ) ∧
      (∀ x ∈ ([(2 : ℚ), 1] : List ℚ), x ≤ hist.hmax) ∧
      hist.num = ([(2 : ℚ), 1] : List ℚ).length ∧
      hist.hsum = ([(2 : ℚ), 1] : List ℚ).sum ∧
      hist.sum_squares = (([(2 : ℚ), 1] : List ℚ).map (fun v => v ^ 2)).sum :=
  ⟨⟨by decide, by decide⟩,
   log_histogram_stats ⟨[]⟩ "h" [2, 1] 5 1 (by decide) (by decide)⟩

/-- C5 counterexample: with the single sample `[1]` and two buckets, the
written record's buckets do not span `[min, max] = [1, 1]` of the sample
set — numpy expands the degenerate range, and the record's last bucket
upper edge is `3/2`, not the sample maximum `1`. -/
theorem log_histogram_span_cex :
    ∃ hist : HistogramProto,
      log_histogram ⟨[]⟩ "t" [1] 0 2 =
        .ok ⟨[Event.summary [⟨"t", SummaryPayload.histo hist⟩] 0, Event.flush]⟩ ∧
      amaxD [1] = 1 ∧
      hist.bucket_limit.getLast? = some (3 / 2) ∧
      ((3 : ℚ) / 2 ≠ 1) := by
  refine ⟨histRecord [1] 2, ?_, rfl, ?_, by norm_num⟩
  · simpa using log_histogram_ok_eq ⟨[]⟩ "t" 1 [] 0 2 (by omega)
  · show ((binEdges (getOuterEdges [1]).1 (getOuterEdges [1]).2 2).drop 1).getLast? = _
    have hedges : getOuterEdges [1] = ((1 : ℚ) - 1 / 2, (1 : ℚ) + 1 / 2) := by
      simpa [aminD, amaxD] using getOuterEdges_of_eq 1 [] rfl
    rw [hedges]
    show ((binEdges (1 - 1 / 2) (1 + 1 / 2) 2).drop 1).getLast? = _
    norm_num [binEdges, List.range_succ]

/-- C5 (amended): for a non-empty sample list and positive `bins`,
`log_histogram` buckets the samples into `bins` equal-width buckets
spanning `[min, max]` of the sample set when `min < max` — and, since
numpy expands a degenerate range, spanning `[min - 1/2, max + 1/2]` when
all samples are equal — and drops the first bucket's lower edge, so the
written record holds exactly `bins` bucket upper-edges and exactly `bins`
bucket counts in matching order (the `i`-th upper edge is
`lo + (hi - lo)·(i+1)/bins` and the `i`-th count counts the samples whose
bucket index is `i`). -/
theorem log_histogram_buckets (w : Writer) (tag : String) (values : List ℚ)
    (step : Int) (bins : Nat) (hne : values ≠ []) (hb : 1 ≤ bins) :
    ∃ (hist : HistogramProto) (lo hi : ℚ),
      log_histogram w tag values step bins =
        .ok ⟨w.events ++
          [Event.summary [⟨tag, SummaryPayload.histo hist⟩] step, Event.flush]⟩ ∧
      (aminD values < amaxD values → lo = aminD values ∧ hi = amaxD values) ∧
      (aminD values = amaxD values →
        lo = aminD values - 1 / 2 ∧ hi = amaxD values + 1 / 2) ∧
      hist.bucket_limit.length = bins ∧
      hist.bucket.length = bins ∧
      (∀ i, i < bins →
        hist.bucket_limit.get? i = some (lo + (hi - lo) * ((i : ℚ) + 1) / bins) ∧
        hist.bucket.get? i =
          some (values.countP (fun x => binIdx lo hi bins x == i))) := by
  cases values with
  | nil => exact absurd rfl hne
  | cons v vs =>
    refine ⟨histRecord (v :: vs) bins, (getOuterEdges (v :: vs)).1,
      (getOuterEdges (v :: vs)).2,
      log_histogram_ok_eq w tag v vs step bins (by omega), ?_, ?_, ?_, ?_, ?_⟩
    · intro hlt
      rw [getOuterEdges_of_lt v vs hlt]
      exact ⟨rfl, rfl⟩
    · intro heq
      rw [getOuterEdges_of_eq v vs heq]
      exact ⟨rfl, rfl⟩
    · show ((binEdges _ _ bins).drop 1).length = bins
      rw [List.length_drop, binEdges_length]
      omega
    · exact histCounts_length _ _ bins (v :: vs)
    · intro i hi
      constructor
      · show ((binEdges _ _ bins).drop 1).get? i = _
        rw [List.get?_drop, binEdges_get? _ _ bins (1 + i) (by omega)]
        congr 1
        push_cast
        ring
      · exact histCounts_get? _ _ bins i (v :: vs) hi

/-- Witness for C5 (amended): samples `[1, 2]` in two buckets. -/
theorem log_histogram_buckets_witness :
    (([(1 : ℚ), 2] : List ℚ) ≠ [] ∧ 1 ≤ 2) ∧
    ∃ (hist : HistogramProto) (lo hi : ℚ),
      log_histogram ⟨[]⟩ "h" [1, 2] 1 2 =
        .ok ⟨(Writer.mk []).events ++
          [Event.summary [⟨"h", SummaryPayload.histo hist⟩] 1, Event.flush]⟩ ∧
      (aminD [1, 2] < amaxD [1, 2] → lo = aminD [1, 2] ∧ hi = amaxD [1, 2]) ∧
      (aminD [1, 2] = amaxD [1, 2] →
        lo = aminD [1, 2] - 1 / 2 ∧ hi = amaxD [1, 2] + 1 / 2) ∧
      hist.bucket_limit.length = 2 ∧
      hist.bucket.length = 2 ∧
      (∀ i, i < 2 →
        hist.bucket_limit.get? i = some (lo + (hi - lo) * ((i : ℚ) + 1) / 2) ∧
        hist.bucket.get? i =
          some (([(1 : ℚ), 2] : List ℚ).countP (fun x => binIdx lo hi 2 x == i))) :=
  ⟨⟨by decide, by decide⟩,
   log_histogram_buckets ⟨[]⟩ "h" [1, 2] 1 2 (by decide) (by decide)⟩

end L2L
